import Mathlib

/-!
Verification of the hybrid retrieval / merge / rerank core of a graph-RAG
pipeline.  The Python sources are embedded shallowly: scores are rationals,
Python dicts are insertion-ordered association lists, and the mutable
`RetrievedChunk` objects of `retrieval.py` are modelled with an explicit
object store (a list of records addressed by natural-number references), so
that in-place score mutation is observable.  External collaborators
(the sentence-transformer embedder, FAISS search, the Neo4j graph service)
are parameters of the corresponding definitions.
-/

namespace GraphRAG

/-- Chunk record from `ingestion.py`: a slice of source text with a string ID. -/
structure Chunk where
  id : String
  text : String
  source_document : String
deriving DecidableEq, Repr

instance : Inhabited Chunk := ⟨⟨"", "", ""⟩⟩

/-- RetrievedChunk from `retrieval.py`: a chunk together with a retrieval score
(modelled as a rational number). -/
structure RetrievedChunk where
  chunk : Chunk
  score : ℚ
deriving DecidableEq, Repr

instance : Inhabited RetrievedChunk := ⟨⟨default, 0⟩⟩

/-- Object store for the mutable `RetrievedChunk` records: a reference is an
index into the store. -/
abbrev Store := List RetrievedChunk

/-- Chunk held by the record behind reference `r`. -/
def chunkAt (store : Store) (r : Nat) : Chunk := (store.getD r default).chunk

/-- Chunk ID (`hit.chunk.id`) of the record behind reference `r`. -/
def idAt (store : Store) (r : Nat) : String := (store.getD r default).chunk.id

/-- Score (`hit.score`) of the record behind reference `r`. -/
def scoreAt (store : Store) (r : Nat) : ℚ := (store.getD r default).score

/-- Observable (ID, score) values of a list of references. -/
def valsAt (store : Store) (rs : List Nat) : List (String × ℚ) :=
  rs.map (fun r => (idAt store r, scoreAt store r))

/-- Python dict assignment `d[k] = v` on an insertion-ordered association list:
overwrite the value in place when the key is present, append otherwise. -/
def dictInsert {β : Type} (d : List (String × β)) (k : String) (v : β) :
    List (String × β) :=
  if (d.lookup k).isSome then
    d.map (fun p => if p.1 = k then (p.1, v) else p)
  else d ++ [(k, v)]

/-- RetrievalConfig from `config.py`. -/
structure RetrievalConfig where
  top_k_vectors : Nat := 10
  top_k_graph : Nat := 10
  alpha_semantic : ℚ := 6/10
deriving Repr

/-- GraphConfig from `config.py`; its `max_hops` field is the configured
maximum traversal depth (the connection fields are irrelevant here but kept
for fidelity). -/
structure GraphConfig where
  uri : String := "bolt://localhost:7687"
  user : String := "neo4j"
  password : String := "password"
  database : String := "neo4j"
  max_hops : Nat := 2
deriving Repr

/-- Errors raised by `Retriever.index`: `invalidShape` models
`ValueError("Embedder returned invalid shape for vectors.")`, and
`dimensionMismatch` models
`ValueError("Embedding dimension mismatch across indexed chunks.")` —
the latter is the spec's DimensionMismatchError. -/
inductive IndexErr where
  | invalidShape
  | dimensionMismatch
deriving DecidableEq, Repr

/-- Mutable state of a `Retriever` (`retrieval.py`): the chunk-repository dict
`_id_to_chunk`, the registration-order list `_chunk_ids`, the FAISS vector
store `_faiss_index` (`none` until first created; a FAISS index object is
always truthy, so `not self._faiss_index` tests only for `None`), and the
recorded embedding dimensionality `_dim`. -/
structure RState where
  id_to_chunk : List (String × Chunk)
  chunk_ids : List String
  faiss_index : Option (List (List ℚ))
  dim : Option Nat
deriving DecidableEq, Repr

/-- Freshly constructed `Retriever` state. -/
def RState.empty : RState := ⟨[], [], none, none⟩

namespace Retriever

/-- Successful tail of `Retriever.index`: append the new vectors to the FAISS
store and register the new IDs and chunk objects in the same order. -/
def commitBatch (s : RState) (d : Nat) (new_chunks : List Chunk)
    (vectors : List (List ℚ)) : RState :=
  { id_to_chunk := new_chunks.foldl (fun m c => dictInsert m c.id c) s.id_to_chunk
    chunk_ids := s.chunk_ids ++ new_chunks.map (fun c => c.id)
    faiss_index := some (s.faiss_index.getD [] ++ vectors)
    dim := some d }

/-- Shallow embedding of `Retriever.index` (`retrieval.py` lines 35-64).
`encode` models `TextEmbedder.encode` per text; `np.asarray` of the batched
output has `ndim == 2` exactly when all vectors have equal length (the batch
is nonempty at that point).  The result pairs the state at the point of
return or raise with the raised error, if any; in the code every raise
happens before any mutation of the batch in question, which the definition
mirrors by returning the incoming state unchanged on the error paths. -/
def index (encode : String → List ℚ) (s : RState) (chunks : List Chunk) :
    RState × Option IndexErr :=
  if chunks = [] then (s, none)
  else
    let new_chunks := chunks.filter (fun c => (s.id_to_chunk.lookup c.id).isNone)
    if new_chunks = [] then (s, none)
    else
      let vectors := new_chunks.map (fun c => encode c.text)
      if vectors.all (fun v => v.length == (vectors.headD []).length) then
        match s.dim with
        | some d =>
          if (vectors.headD []).length ≠ d then (s, some .dimensionMismatch)
          else (commitBatch s d new_chunks vectors, none)
        | none => (commitBatch s (vectors.headD []).length new_chunks vectors, none)
      else (s, some .invalidShape)

/-- Shallow embedding of `Retriever._semantic_search` (`retrieval.py`).
`search` models `faiss.IndexFlatIP.search` on the stored vectors, returning
one (score, positional index) pair per requested neighbour; a single-query
batch always produces a two-dimensional `q_vec`, so the `q_vec.ndim != 2`
guard never fires and is not modelled.  Out-of-range indices and IDs that do
not resolve in the chunk repository are skipped. -/
def _semantic_search (encode : String → List ℚ)
    (search : List (List ℚ) → List ℚ → Nat → List (ℚ × Int))
    (cfg : RetrievalConfig) (s : RState) (query : String) : List RetrievedChunk :=
  match s.faiss_index with
  | none => []
  | some vecs =>
    if s.chunk_ids = [] then []
    else
      (search vecs (encode query) (min cfg.top_k_vectors s.chunk_ids.length)).foldr
        (fun p hits =>
          if p.2 < (0 : Int) ∨ (s.chunk_ids.length : Int) ≤ p.2 then hits
          else
            match s.id_to_chunk.lookup (s.chunk_ids.getD p.2.toNat "") with
            | none => hits
            | some c => ⟨c, p.1⟩ :: hits) []

/-- Arguments `Retriever._graph_expand` passes to `GraphStore.neighbors`,
`none` when the empty-seed guard returns without calling the Graph Service.
The second component is the literal `max_hops=2` from the call site, the
third is `self.config.top_k_graph`. -/
def graphExpandCall (cfg : RetrievalConfig) (entry_entities : List String) :
    Option (List String × Nat × Nat) :=
  if entry_entities = [] then none else some (entry_entities, 2, cfg.top_k_graph)

/-- Shallow embedding of `Retriever._graph_expand` (`retrieval.py`):
`neighbors` models the Graph Service call; every resolved neighbour is given
the flat score 1.0 and unknown node IDs are dropped silently. -/
def _graph_expand (neighbors : List String → Nat → Nat → List String)
    (cfg : RetrievalConfig) (s : RState) (entry_entities : List String) :
    List RetrievedChunk :=
  match graphExpandCall cfg entry_entities with
  | none => []
  | some args =>
    (neighbors args.1 args.2.1 args.2.2).foldr
      (fun nid hits =>
        match s.id_to_chunk.lookup nid with
        | none => hits
        | some c => ⟨c, 1⟩ :: hits) []

/-- Seed dict of `Retriever._merge`: the comprehension
`merged = ...` mapping `hit.chunk.id` to the hit object, over `semantic`. -/
def mergeSeed (store : Store) (semantic : List Nat) : List (String × Nat) :=
  semantic.foldl (fun d r => dictInsert d (idAt store r) r) []

/-- One iteration of the `for hit in graph` loop of `Retriever._merge`: when
the hit's chunk ID is a key of the dict, the score of the object the dict
points to is reassigned in place (a mutation of the shared record); otherwise
the hit is inserted into the dict. -/
def mergeStep (alpha : ℚ) (sd : Store × List (String × Nat)) (g : Nat) :
    Store × List (String × Nat) :=
  match sd.2.lookup (idAt sd.1 g) with
  | some r =>
    let old := sd.1.getD r default
    (sd.1.set r ⟨old.chunk, alpha * old.score + (1 - alpha) * scoreAt sd.1 g⟩, sd.2)
  | none => (sd.1, sd.2 ++ [(idAt sd.1 g, g)])

/-- Shallow embedding of `Retriever._merge` (`retrieval.py` lines 102-114)
over the object store: seed the dict from `semantic`, run the graph loop
(which mutates stored records in place), then stably sort the dict's values
by descending score (`list.sort(key=..., reverse=True)` is a stable sort).
Returns the final store and the references of the merged list. -/
def _merge (cfg : RetrievalConfig) (store : Store) (semantic graph : List Nat) :
    Store × List Nat :=
  let sd := graph.foldl (mergeStep cfg.alpha_semantic) (store, mergeSeed store semantic)
  (sd.1, (sd.2.map Prod.snd).insertionSort (fun a b => scoreAt sd.1 b ≤ scoreAt sd.1 a))

end Retriever

namespace Reranker

/-- Python dict comprehension over the centrality response of the Graph
Service (`centrality = ...` in `Reranker.rerank`): later pairs with the same
key overwrite earlier ones. -/
def centralityDict (pairs : List (String × ℚ)) : List (String × ℚ) :=
  pairs.foldl (fun m p => dictInsert m p.1 p.2) []

/-- Chunk IDs `Reranker.rerank` passes to `GraphStore.centrality_score`,
`none` when the `if not ids` guard returns before the Graph Service call. -/
def calledIds (store : Store) (merged : List Nat) : Option (List String) :=
  let ids := merged.map (idAt store)
  if ids = [] then none else some ids

/-- Rescored record built by one iteration of the rescoring loop of
`Reranker.rerank` for the merged item behind reference `r`:
`RetrievedChunk(chunk=hit.chunk, score=0.7 * hit.score + 0.3 * c_score)`
where `c_score = centrality.get(hit.chunk.id, 0.0)`. -/
def rescored (centr : List (String × ℚ)) (store : Store) (r : Nat) :
    RetrievedChunk :=
  ⟨chunkAt store r,
   7/10 * scoreAt store r + 3/10 * ((centr.lookup (idAt store r)).getD 0)⟩

/-- One iteration of the rescoring loop of `Reranker.rerank`: the freshly
constructed record is allocated at the end of the store and its reference is
appended to the result list. -/
def rescoreOne (centr : List (String × ℚ)) (store : Store)
    (acc : Store × List Nat) (r : Nat) : Store × List Nat :=
  (acc.1 ++ [rescored centr store r], acc.2 ++ [acc.1.length])

/-- Shallow embedding of `Reranker.rerank` (`rerank.py`) over the object
store: empty-merged guard, centrality lookup with fallback to the unchanged
merged list, rescoring into freshly allocated records with
`0.7 * score + 0.3 * centrality.get(id, 0.0)`, and a stable descending sort.
`centrality` models the Graph Service call on the merged IDs. -/
def rerank (centrality : List String → List (String × ℚ)) (store : Store)
    (merged : List Nat) : Store × List Nat :=
  let ids := merged.map (idAt store)
  if ids = [] then (store, [])
  else
    let centr := centralityDict (centrality ids)
    if centr = [] then (store, merged)
    else
      let sr := merged.foldl (rescoreOne centr store) (store, [])
      (sr.1, sr.2.insertionSort (fun a b => scoreAt sr.1 b ≤ scoreAt sr.1 a))

end Reranker

/-- Written from the specification's words for the merge contract (claim C1),
for comparison with `Retriever._merge`: one graph entry is processed against
the value-level map; when its chunk ID is already a key the score of that key
becomes `alpha * semantic_score + (1 - alpha) * graph_score`, otherwise the
entry is inserted with its own score unchanged. -/
def specStep (alpha : ℚ) (m : List (String × ℚ)) (kg : String × ℚ) :
    List (String × ℚ) :=
  if (m.lookup kg.1).isSome then
    m.map (fun p => if p.1 = kg.1 then (p.1, alpha * p.2 + (1 - alpha) * kg.2) else p)
  else m ++ [kg]

/-- Written from the specification's words for the merge contract (claim C1):
the map seeded with all semantic entries keyed by chunk ID, after all graph
entries have been processed by `specStep`.  The claimed merge output is the
value list of this map, sorted by descending score. -/
def mergeSpecDict (alpha : ℚ) (S G : List (String × ℚ)) : List (String × ℚ) :=
  G.foldl (specStep alpha) S

/-- Invariant of the graph loop of `Retriever._merge`, relating the store and
the dict after the prefix `ps` of the graph references has been processed to
the original store `store0` and the inputs `sem` and `graph`. -/
structure MInv (alpha : ℚ) (store0 : Store) (sem graph : List Nat)
    (ps : List Nat) (st : Store) (d : List (String × Nat)) : Prop where
  len : st.length = store0.length
  chunks : ∀ r : Nat, chunkAt st r = chunkAt store0 r
  keysNodup : (d.map Prod.fst).Nodup
  valsNodup : (d.map Prod.snd).Nodup
  entryId : ∀ p ∈ d, p.1 = idAt store0 p.2
  entryLt : ∀ p ∈ d, p.2 < store0.length
  entrySrc : ∀ p ∈ d, p.2 ∈ sem ∨ p.2 ∈ ps
  semMem : ∀ r ∈ sem, (idAt store0 r, r) ∈ d
  graphUntouched : ∀ g ∈ graph, g ∉ ps → st.getD g default = store0.getD g default
  semStatus : ∀ r ∈ sem,
    (idAt store0 r ∉ ps.map (idAt store0) → st.getD r default = store0.getD r default)
    ∧ ∀ g ∈ ps, idAt store0 g = idAt store0 r →
        st.getD r default =
          ⟨chunkAt store0 r, alpha * scoreAt store0 r + (1 - alpha) * scoreAt store0 g⟩
  sim : (ps.map (fun g => (idAt store0 g, scoreAt store0 g))).foldl (specStep alpha)
          (valsAt store0 sem)
        = d.map (fun p => (p.1, scoreAt st p.2))

section ConcreteData

/-- Concrete chunk used in witnesses. -/
def cA : Chunk := ⟨"A", "ta", "d0"⟩

/-- Concrete chunk used in witnesses. -/
def cB : Chunk := ⟨"B", "tb", "d0"⟩

/-- Concrete chunk used in witnesses. -/
def cC : Chunk := ⟨"C", "tc", "d0"⟩

/-- Store for the merge example of the spec: semantic hits A(0.9), B(0.5) at
references 0 and 1, graph hits B(1.0), C(1.0) at references 2 and 3. -/
def mergeStore : Store := [⟨cA, 9/10⟩, ⟨cB, 1/2⟩, ⟨cB, 1⟩, ⟨cC, 1⟩]

/-- Default retrieval configuration (`alpha_semantic = 0.6`). -/
def cfg0 : RetrievalConfig := {}

/-- Store for the rerank example of the spec: a single merged item with
score 0.8. -/
def rerankStore : Store := [⟨cA, 4/5⟩]

/-- Concrete embedder producing two-dimensional vectors. -/
def enc2 : String → List ℚ := fun _ => [1, 0]

/-- Concrete embedder producing three-dimensional vectors. -/
def enc3 : String → List ℚ := fun _ => [1, 2, 3]

end ConcreteData

/-- Membership consistency of the Vector Index and the Chunk Repository
(claim C9): some registration history `hist` of chunks explains the state —
the i-th registered chunk ID is the ID of the i-th history chunk, the i-th
stored vector is the embedding of that chunk's text, and every registered ID
resolves in the chunk repository. -/
def Consistent (encode : String → List ℚ) (s : RState) : Prop :=
  ∃ hist : List Chunk,
    s.chunk_ids = hist.map (fun c => c.id)
    ∧ s.faiss_index.getD [] = hist.map (fun c => encode c.text)
    ∧ ∀ k ∈ s.chunk_ids, (s.id_to_chunk.lookup k).isSome

/-- Graph configuration with a non-default `max_hops`, used to exhibit that
`Retriever._graph_expand` ignores the configured value. -/
def gcfg3 : GraphConfig := { max_hops := 3 }

section Helpers

theorem lookup_cons_self {β : Type} (t : List (String × β)) (a : String) (b : β) :
    List.lookup a ((a, b) :: t) = some b := by
  simp [List.lookup]

theorem lookup_cons_of_ne {β : Type} (t : List (String × β)) (a : String) (b : β)
    {k : String} (h : k ≠ a) : List.lookup k ((a, b) :: t) = List.lookup k t := by
  have hb : (k == a) = false := by
    simp [h]
  simp [List.lookup, hb]

theorem lookup_eq_none_iff {β : Type} (d : List (String × β)) (k : String) :
    d.lookup k = none ↔ k ∉ d.map Prod.fst := by
  induction d with
  | nil => simp
  | cons p t ih =>
    obtain ⟨a, b⟩ := p
    by_cases h : k = a
    · subst h; simp [lookup_cons_self]
    · rw [lookup_cons_of_ne t a b h]
      simp [h, ih]

theorem lookup_isSome_iff {β : Type} (d : List (String × β)) (k : String) :
    (d.lookup k).isSome ↔ k ∈ d.map Prod.fst := by
  simp [Option.isSome_iff_ne_none, ne_eq, lookup_eq_none_iff]

theorem lookup_mem {β : Type} {d : List (String × β)} {k : String} {v : β}
    (h : d.lookup k = some v) : (k, v) ∈ d := by
  induction d with
  | nil => simp at h
  | cons p t ih =>
    obtain ⟨a, b⟩ := p
    by_cases hk : k = a
    · subst hk
      rw [lookup_cons_self] at h
      injection h with h
      subst h
      exact List.mem_cons_self _ _
    · rw [lookup_cons_of_ne t a b hk] at h
      exact List.mem_cons_of_mem _ (ih h)

theorem lookup_of_mem {β : Type} {d : List (String × β)}
    (hnd : (d.map Prod.fst).Nodup) {k : String} {v : β} (h : (k, v) ∈ d) :
    d.lookup k = some v := by
  induction d with
  | nil => simp at h
  | cons p t ih =>
    obtain ⟨a, b⟩ := p
    simp only [List.map_cons, List.nodup_cons] at hnd
    rcases List.mem_cons.mp h with h1 | h1
    · injection h1 with h1a h1b
      subst h1a
      subst h1b
      exact lookup_cons_self t k v
    · have hka : k ≠ a := by
        rintro rfl
        exact hnd.1 (List.mem_map_of_mem Prod.fst h1)
      rw [lookup_cons_of_ne t a b hka]
      exact ih hnd.2 h1

theorem lookup_map_snd {β γ : Type} (d : List (String × β)) (f : β → γ) (k : String) :
    (d.map (fun p => (p.1, f p.2))).lookup k = (d.lookup k).map f := by
  induction d with
  | nil => simp
  | cons p t ih =>
    obtain ⟨a, b⟩ := p
    by_cases h : k = a
    · subst h
      simp only [List.map_cons]
      rw [lookup_cons_self, lookup_cons_self]
      rfl
    · simp only [List.map_cons]
      rw [lookup_cons_of_ne _ a b h, lookup_cons_of_ne _ a (f b) h, ih]

theorem getD_set_self {α : Type} (l : List α) (i : Nat) (v d : α)
    (h : i < l.length) : (l.set i v).getD i d = v := by
  simp [List.getD_eq_getElem?_getD, List.getElem?_set_self h]

theorem getD_set_ne {α : Type} (l : List α) {i j : Nat} (v d : α) (h : i ≠ j) :
    (l.set i v).getD j d = l.getD j d := by
  simp [List.getD_eq_getElem?_getD, List.getElem?_set_ne h]

theorem dictInsert_of_not_mem {β : Type} {d : List (String × β)} {k : String}
    (h : k ∉ d.map Prod.fst) (v : β) : dictInsert d k v = d ++ [(k, v)] := by
  simp [dictInsert, (lookup_eq_none_iff d k).mpr h]

theorem keys_dictInsert {β : Type} (d : List (String × β)) (k : String) (v : β) :
    (dictInsert d k v).map Prod.fst =
      if k ∈ d.map Prod.fst then d.map Prod.fst else d.map Prod.fst ++ [k] := by
  by_cases h : k ∈ d.map Prod.fst
  · rw [if_pos h, dictInsert, if_pos ((lookup_isSome_iff d k).mpr h)]
    rw [List.map_map]
    apply List.map_congr_left
    intro p _
    by_cases hp : p.1 = k <;> simp [hp]
  · rw [if_neg h, dictInsert_of_not_mem h]
    simp

theorem keys_foldl_dictInsert_mono {β γ : Type} (f : γ → String) (fv : γ → β) :
    ∀ (l : List γ) (m0 : List (String × β)) (k : String), k ∈ m0.map Prod.fst →
      k ∈ (l.foldl (fun m x => dictInsert m (f x) (fv x)) m0).map Prod.fst := by
  intro l
  induction l with
  | nil => intro m0 k hk; simpa using hk
  | cons c t ih =>
    intro m0 k hk
    simp only [List.foldl_cons]
    apply ih
    rw [keys_dictInsert]
    split
    · exact hk
    · exact List.mem_append_left _ hk

theorem mem_keys_foldl_dictInsert {β γ : Type} (f : γ → String) (fv : γ → β) :
    ∀ (l : List γ) (m0 : List (String × β)) (c : γ), c ∈ l →
      f c ∈ (l.foldl (fun m x => dictInsert m (f x) (fv x)) m0).map Prod.fst := by
  intro l
  induction l with
  | nil => intro m0 c hc; simp at hc
  | cons c0 t ih =>
    intro m0 c hc
    simp only [List.foldl_cons]
    rcases List.mem_cons.mp hc with h | h
    · subst h
      apply keys_foldl_dictInsert_mono
      rw [keys_dictInsert]
      split
      · assumption
      · exact List.mem_append_right _ (List.mem_singleton_self _)
    · exact ih _ c h

theorem dictInsert_ne_nil {β : Type} (d : List (String × β)) (k : String) (v : β) :
    dictInsert d k v ≠ [] := by
  cases d with
  | nil => simp [dictInsert, List.lookup]
  | cons p t =>
    rw [dictInsert]
    split <;> simp

theorem foldl_dictInsert_ne_nil {β : Type} :
    ∀ (l : List (String × β)) (m0 : List (String × β)), m0 ≠ [] →
      l.foldl (fun m p => dictInsert m p.1 p.2) m0 ≠ [] := by
  intro l
  induction l with
  | nil => intro m0 h; simpa using h
  | cons p t ih =>
    intro m0 _
    simp only [List.foldl_cons]
    exact ih _ (dictInsert_ne_nil m0 p.1 p.2)

theorem centralityDict_ne_nil {pairs : List (String × ℚ)} (h : pairs ≠ []) :
    Reranker.centralityDict pairs ≠ [] := by
  obtain ⟨p, t, rfl⟩ := List.exists_cons_of_ne_nil h
  rw [Reranker.centralityDict]
  simp only [List.foldl_cons]
  exact foldl_dictInsert_ne_nil t _ (dictInsert_ne_nil [] p.1 p.2)

theorem map_getD_range {α : Type} [Inhabited α] :
    ∀ l : List α, (List.range l.length).map (fun i => l.getD i default) = l := by
  intro l
  induction l with
  | nil => simp
  | cons a t ih =>
    rw [List.length_cons, List.range_succ_eq_map, List.map_cons, List.map_map]
    have h1 : ∀ i ∈ List.range t.length,
        ((fun i => (a :: t).getD i default) ∘ Nat.succ) i = t.getD i default := by
      intro i _
      simp [List.getD_cons_succ]
    rw [List.map_congr_left h1, ih]
    simp

theorem rescore_foldl (centr : List (String × ℚ)) (store : Store) :
    ∀ (merged : List Nat) (st : Store) (rs : List Nat),
      merged.foldl (Reranker.rescoreOne centr store) (st, rs)
      = (st ++ merged.map (Reranker.rescored centr store),
         rs ++ (List.range merged.length).map (fun i => st.length + i)) := by
  intro merged
  induction merged with
  | nil => intro st rs; simp
  | cons r t ih =>
    intro st rs
    simp only [List.foldl_cons, Reranker.rescoreOne]
    rw [ih]
    refine Prod.ext ?_ ?_
    · simp
    · simp only [List.length_cons, List.range_succ_eq_map, List.map_cons,
        List.map_map, List.length_append, List.length_singleton]
      rw [List.append_assoc]
      simp only [List.singleton_append, Nat.add_zero]
      congr 1
      congr 1
      apply List.map_congr_left
      intro i _
      simp [Function.comp]
      omega

end Helpers

section MergeProof

theorem mergeSeed_aux (store0 : Store) :
    ∀ (sem : List Nat) (acc : List (String × Nat)),
      (∀ r ∈ sem, idAt store0 r ∉ acc.map Prod.fst) →
      (sem.map (idAt store0)).Nodup →
      sem.foldl (fun d r => dictInsert d (idAt store0 r) r) acc
        = acc ++ sem.map (fun r => (idAt store0 r, r)) := by
  intro sem
  induction sem with
  | nil => intro acc _ _; simp
  | cons r t ih =>
    intro acc hacc hnd
    simp only [List.foldl_cons]
    rw [dictInsert_of_not_mem (hacc r (List.mem_cons_self _ _)) r]
    simp only [List.map_cons, List.nodup_cons] at hnd
    rw [ih (acc ++ [(idAt store0 r, r)]) ?_ hnd.2]
    · simp
    · intro r' hr'
      rw [List.map_append, List.mem_append]
      rintro (h | h)
      · exact hacc r' (List.mem_cons_of_mem _ hr') h
      · simp only [List.map_cons, List.map_nil, List.mem_singleton] at h
        exact hnd.1 (h ▸ List.mem_map_of_mem (idAt store0) hr')

theorem mergeSeed_eq (store0 : Store) (sem : List Nat)
    (hnd : (sem.map (idAt store0)).Nodup) :
    Retriever.mergeSeed store0 sem = sem.map (fun r => (idAt store0 r, r)) := by
  rw [Retriever.mergeSeed, mergeSeed_aux store0 sem [] (by simp) hnd]
  simp

theorem MInv.idAt_stable {alpha : ℚ} {store0 : Store} {sem graph ps : List Nat}
    {st : Store} {d : List (String × Nat)}
    (inv : MInv alpha store0 sem graph ps st d) (r : Nat) :
    idAt st r = idAt store0 r :=
  congrArg Chunk.id (inv.chunks r)

theorem mergeStep_lookup_none (alpha : ℚ) (st : Store) (d : List (String × Nat))
    (g : Nat) (h : d.lookup (idAt st g) = none) :
    Retriever.mergeStep alpha (st, d) g = (st, d ++ [(idAt st g, g)]) := by
  simp [Retriever.mergeStep, h]

theorem mergeStep_lookup_some (alpha : ℚ) (st : Store) (d : List (String × Nat))
    (g r : Nat) (h : d.lookup (idAt st g) = some r) :
    Retriever.mergeStep alpha (st, d) g
      = (st.set r ⟨(st.getD r default).chunk,
          alpha * (st.getD r default).score + (1 - alpha) * scoreAt st g⟩, d) := by
  simp [Retriever.mergeStep, h]

theorem mergeInv_init (alpha : ℚ) (store0 : Store) (sem graph : List Nat)
    (Hs : ∀ r ∈ sem, r < store0.length)
    (Hsn : (sem.map (idAt store0)).Nodup) :
    MInv alpha store0 sem graph [] store0 (Retriever.mergeSeed store0 sem) := by
  rw [mergeSeed_eq store0 sem Hsn]
  refine ⟨rfl, fun _ => rfl, ?_, ?_, ?_, ?_, ?_, ?_, ?_, ?_, ?_⟩
  · simpa [List.map_map, Function.comp] using Hsn
  · have : (sem.map (fun r => (idAt store0 r, r))).map Prod.snd = sem := by
      rw [List.map_map]
      conv_rhs => rw [← List.map_id sem]
      exact List.map_congr_left (fun a _ => rfl)
    rw [this]
    exact List.Nodup.of_map _ Hsn
  · rintro p hp
    obtain ⟨r, _, rfl⟩ := List.mem_map.mp hp
    rfl
  · rintro p hp
    obtain ⟨r, hr, rfl⟩ := List.mem_map.mp hp
    exact Hs r hr
  · rintro p hp
    obtain ⟨r, hr, rfl⟩ := List.mem_map.mp hp
    exact Or.inl hr
  · intro r hr
    exact List.mem_map_of_mem _ hr
  · intro g _ _
    rfl
  · intro r _
    exact ⟨fun _ => rfl, fun g hg => absurd hg (List.not_mem_nil g)⟩
  · simp [valsAt, List.map_map, Function.comp]

theorem mergeInv_step (alpha : ℚ) (store0 : Store) (sem graph : List Nat)
    (Hg : ∀ g ∈ graph, g < store0.length)
    (Hgn : (graph.map (idAt store0)).Nodup)
    (Hdisj : ∀ g ∈ graph, g ∉ sem)
    (Hsn : (sem.map (idAt store0)).Nodup)
    {ps gs : List Nat} {g : Nat} (hsplit : graph = ps ++ g :: gs)
    {st : Store} {d : List (String × Nat)}
    (inv : MInv alpha store0 sem graph ps st d) :
    MInv alpha store0 sem graph (ps ++ [g])
      (Retriever.mergeStep alpha (st, d) g).1
      (Retriever.mergeStep alpha (st, d) g).2 := by
  have hgmem : g ∈ graph := by
    rw [hsplit]
    exact List.mem_append_right _ (List.mem_cons_self _ _)
  have hgraphnd : graph.Nodup := List.Nodup.of_map _ Hgn
  have hgps : g ∉ ps := by
    intro hmem
    have hnd := hgraphnd
    rw [hsplit, List.nodup_append] at hnd
    exact hnd.2.2 hmem (List.mem_cons_self _ _)
  have hinj : ∀ ⦃x⦄, x ∈ graph → ∀ ⦃y⦄, y ∈ graph →
      idAt store0 x = idAt store0 y → x = y :=
    List.inj_on_of_nodup_map Hgn
  have hsinj : ∀ ⦃x⦄, x ∈ sem → ∀ ⦃y⦄, y ∈ sem →
      idAt store0 x = idAt store0 y → x = y :=
    List.inj_on_of_nodup_map Hsn
  have hps_sub : ∀ x ∈ ps, x ∈ graph := by
    intro x hx
    rw [hsplit]
    exact List.mem_append_left _ hx
  have hidg_ps : idAt store0 g ∉ ps.map (idAt store0) := by
    intro hmem
    obtain ⟨g', hg', heq⟩ := List.mem_map.mp hmem
    have hgg : g' = g := hinj (hps_sub g' hg') hgmem heq
    exact hgps (hgg ▸ hg')
  have hstid : idAt st g = idAt store0 g := inv.idAt_stable g
  have hstscore : scoreAt st g = scoreAt store0 g :=
    congrArg RetrievedChunk.score (inv.graphUntouched g hgmem hgps)
  rcases hl : d.lookup (idAt store0 g) with _ | r
  · -- graph hit with a fresh chunk ID: inserted into the dict, store unchanged
    rw [mergeStep_lookup_none alpha st d g (hstid.symm ▸ hl), hstid]
    refine ⟨inv.len, inv.chunks, ?_, ?_, ?_, ?_, ?_, ?_, ?_, ?_, ?_⟩
    · rw [List.map_append, List.nodup_append]
      refine ⟨inv.keysNodup, List.nodup_singleton _, ?_⟩
      intro a ha hmem
      simp only [List.map_cons, List.map_nil, List.mem_singleton] at hmem
      subst hmem
      exact (lookup_eq_none_iff d _).mp hl ha
    · rw [List.map_append, List.nodup_append]
      refine ⟨inv.valsNodup, List.nodup_singleton _, ?_⟩
      intro a ha hmem
      simp only [List.map_cons, List.map_nil, List.mem_singleton] at hmem
      subst hmem
      obtain ⟨p, hp, hpa⟩ := List.mem_map.mp ha
      rcases inv.entrySrc p hp with h | h
      · exact Hdisj a hgmem (hpa ▸ h)
      · exact hgps (hpa ▸ h)
    · intro p hp
      rcases List.mem_append.mp hp with h | h
      · exact inv.entryId p h
      · simp only [List.mem_singleton] at h
        subst h
        rfl
    · intro p hp
      rcases List.mem_append.mp hp with h | h
      · exact inv.entryLt p h
      · simp only [List.mem_singleton] at h
        subst h
        exact Hg g hgmem
    · intro p hp
      rcases List.mem_append.mp hp with h | h
      · rcases inv.entrySrc p h with h1 | h1
        · exact Or.inl h1
        · exact Or.inr (List.mem_append_left _ h1)
      · simp only [List.mem_singleton] at h
        subst h
        exact Or.inr (List.mem_append_right _ (List.mem_singleton_self _))
    · intro r' hr'
      exact List.mem_append_left _ (inv.semMem r' hr')
    · intro g' hg' hn
      exact inv.graphUntouched g' hg' (fun h => hn (List.mem_append_left _ h))
    · intro r' hr'
      obtain ⟨h1, h2⟩ := inv.semStatus r' hr'
      constructor
      · intro hnot
        exact h1 (fun hm => hnot
          (by rw [List.map_append]; exact List.mem_append_left _ hm))
      · intro g' hg' heq
        rcases List.mem_append.mp hg' with hh | hh
        · exact h2 g' hh heq
        · simp only [List.mem_singleton] at hh
          subst hh
          exfalso
          have hmemkeys : idAt store0 g' ∈ d.map Prod.fst := by
            rw [heq]
            exact List.mem_map_of_mem Prod.fst (inv.semMem r' hr')
          exact (lookup_eq_none_iff d _).mp hl hmemkeys
    · rw [List.map_append, List.foldl_append, inv.sim]
      simp only [List.map_cons, List.map_nil, List.foldl_cons, List.foldl_nil]
      have hlook : (d.map (fun p => (p.1, scoreAt st p.2))).lookup (idAt store0 g)
          = none := by
        rw [lookup_map_snd d (scoreAt st) (idAt store0 g), hl]
        rfl
      simp only [specStep, hlook, Option.isSome_none, Bool.false_eq_true, if_false]
      rw [List.map_append]
      simp only [List.map_cons, List.map_nil]
      rw [hstscore]
  · -- graph hit whose chunk ID is already present: in-place blend of the
    -- shared record
    rw [mergeStep_lookup_some alpha st d g r (hstid.symm ▸ hl)]
    have hmem_kr : (idAt store0 g, r) ∈ d := lookup_mem hl
    have hrk : idAt store0 g = idAt store0 r := inv.entryId _ hmem_kr
    have hrlt : r < store0.length := inv.entryLt _ hmem_kr
    have hrlt' : r < st.length := by
      rw [inv.len]
      exact hrlt
    have hrsem : r ∈ sem := by
      rcases inv.entrySrc _ hmem_kr with h | h
      · exact h
      · exfalso
        have hrg : r = g := hinj (hps_sub r h) hgmem hrk.symm
        exact hgps (hrg ▸ h)
    have hfresh : st.getD r default = store0.getD r default :=
      (inv.semStatus r hrsem).1 (by rw [← hrk]; exact hidg_ps)
    have hsr : scoreAt st r = scoreAt store0 r := congrArg RetrievedChunk.score hfresh
    have hval : (⟨(st.getD r default).chunk,
        alpha * (st.getD r default).score + (1 - alpha) * scoreAt st g⟩ : RetrievedChunk)
        = ⟨chunkAt store0 r,
           alpha * scoreAt store0 r + (1 - alpha) * scoreAt store0 g⟩ := by
      rw [hfresh, hstscore]
      rfl
    rw [hval]
    refine ⟨?_, ?_, inv.keysNodup, inv.valsNodup, inv.entryId, inv.entryLt,
      ?_, inv.semMem, ?_, ?_, ?_⟩
    · rw [List.length_set]
      exact inv.len
    · intro t
      by_cases ht : t = r
      · subst ht
        rw [chunkAt, getD_set_self st t _ default hrlt']
      · rw [chunkAt, getD_set_ne st _ default (fun h0 => ht h0.symm)]
        exact inv.chunks t
    · intro p hp
      rcases inv.entrySrc p hp with h | h
      · exact Or.inl h
      · exact Or.inr (List.mem_append_left _ h)
    · intro g' hg' hn
      have hg'ps : g' ∉ ps := fun h => hn (List.mem_append_left _ h)
      have hg'r : g' ≠ r := fun heq => Hdisj g' hg' (heq ▸ hrsem)
      rw [getD_set_ne st _ default (fun h0 => hg'r h0.symm)]
      exact inv.graphUntouched g' hg' hg'ps
    · intro r' hr'
      obtain ⟨h1, h2⟩ := inv.semStatus r' hr'
      constructor
      · intro hnot
        have hnot_ps : idAt store0 r' ∉ ps.map (idAt store0) := fun hm =>
          hnot (by rw [List.map_append]; exact List.mem_append_left _ hm)
        have hne_k : idAt store0 r' ≠ idAt store0 g := by
          intro heq
          apply hnot
          rw [List.map_append]
          refine List.mem_append_right _ ?_
          simp [heq]
        have hr'r : r' ≠ r := by
          intro heq
          apply hne_k
          rw [heq]
          exact hrk.symm
        rw [getD_set_ne st _ default (fun h0 => hr'r h0.symm)]
        exact h1 hnot_ps
      · intro g' hg' heq
        rcases List.mem_append.mp hg' with hh | hh
        · have hr'r : r' ≠ r := by
            intro hrr
            subst hrr
            have hg'g : g' = g := hinj (hps_sub g' hh) hgmem (by rw [heq, ← hrk])
            exact hgps (hg'g ▸ hh)
          rw [getD_set_ne st _ default (fun h0 => hr'r h0.symm)]
          exact h2 g' hh heq
        · simp only [List.mem_singleton] at hh
          subst hh
          have hr'r : r' = r := hsinj hr' hrsem (by rw [← heq]; exact hrk)
          rw [hr'r, getD_set_self st r _ default hrlt']
    · rw [List.map_append, List.foldl_append, inv.sim]
      simp only [List.map_cons, List.map_nil, List.foldl_cons, List.foldl_nil]
      have hlook : (d.map (fun p => (p.1, scoreAt st p.2))).lookup (idAt store0 g)
          = some (scoreAt st r) := by
        rw [lookup_map_snd d (scoreAt st) (idAt store0 g), hl]
        rfl
      simp only [specStep, hlook, Option.isSome_some, if_true]
      rw [List.map_map]
      apply List.map_congr_left
      intro q hq
      obtain ⟨q1, q2⟩ := q
      by_cases hq1 : q1 = idAt store0 g
      · subst hq1
        have hq2 : q2 = r := by
          have hlq := lookup_of_mem inv.keysNodup hq
          rw [hl] at hlq
          injection hlq with hlq
          exact hlq.symm
        subst hq2
        simp only [Function.comp]
        simp only [if_true]
        have hscoreset : scoreAt (st.set q2 ⟨chunkAt store0 q2,
            alpha * scoreAt store0 q2 + (1 - alpha) * scoreAt store0 g⟩) q2
            = alpha * scoreAt store0 q2 + (1 - alpha) * scoreAt store0 g := by
          rw [scoreAt, getD_set_self st q2 _ default hrlt']
        rw [hscoreset, hsr]
      · have hq2r : q2 ≠ r := by
          intro heq
          subst heq
          have hpair : (q1, q2) = (idAt store0 g, q2) :=
            List.inj_on_of_nodup_map inv.valsNodup hq hmem_kr rfl
          exact hq1 (congrArg Prod.fst hpair)
        simp only [Function.comp]
        rw [if_neg hq1]
        have hscoreset : scoreAt (st.set r ⟨chunkAt store0 r,
            alpha * scoreAt store0 r + (1 - alpha) * scoreAt store0 g⟩) q2
            = scoreAt st q2 := by
          rw [scoreAt, getD_set_ne st _ default (fun h0 => hq2r h0.symm), scoreAt]
        rw [hscoreset]

theorem mergeFold_inv (alpha : ℚ) (store0 : Store) (sem graph : List Nat)
    (Hg : ∀ g ∈ graph, g < store0.length)
    (Hgn : (graph.map (idAt store0)).Nodup)
    (Hdisj : ∀ g ∈ graph, g ∉ sem)
    (Hsn : (sem.map (idAt store0)).Nodup) :
    ∀ (gs ps : List Nat) (st : Store) (d : List (String × Nat)),
      graph = ps ++ gs → MInv alpha store0 sem graph ps st d →
      MInv alpha store0 sem graph graph
        (gs.foldl (Retriever.mergeStep alpha) (st, d)).1
        (gs.foldl (Retriever.mergeStep alpha) (st, d)).2 := by
  intro gs
  induction gs with
  | nil =>
    intro ps st d hsplit inv
    rw [List.append_nil] at hsplit
    subst hsplit
    simpa using inv
  | cons g t ih =>
    intro ps st d hsplit inv
    simp only [List.foldl_cons]
    have step := mergeInv_step alpha store0 sem graph Hg Hgn Hdisj Hsn hsplit inv
    have hsplit2 : graph = (ps ++ [g]) ++ t := by
      rw [hsplit]
      simp
    have hres := ih (ps ++ [g]) (Retriever.mergeStep alpha (st, d) g).1
      (Retriever.mergeStep alpha (st, d) g).2 hsplit2 step
    rw [Prod.mk.eta] at hres
    exact hres

theorem merge_final_inv (alpha : ℚ) (store0 : Store) (sem graph : List Nat)
    (Hs : ∀ r ∈ sem, r < store0.length)
    (Hg : ∀ g ∈ graph, g < store0.length)
    (Hsn : (sem.map (idAt store0)).Nodup)
    (Hgn : (graph.map (idAt store0)).Nodup)
    (Hdisj : ∀ g ∈ graph, g ∉ sem) :
    MInv alpha store0 sem graph graph
      (graph.foldl (Retriever.mergeStep alpha)
        (store0, Retriever.mergeSeed store0 sem)).1
      (graph.foldl (Retriever.mergeStep alpha)
        (store0, Retriever.mergeSeed store0 sem)).2 :=
  mergeFold_inv alpha store0 sem graph Hg Hgn Hdisj Hsn graph [] store0
    (Retriever.mergeSeed store0 sem) (by simp)
    (mergeInv_init alpha store0 sem graph Hs Hsn)

end MergeProof

section RerankProof

theorem map_f_getD_range {α β : Type} [Inhabited α] (f : α → β) (l : List α) :
    (List.range l.length).map (fun i => f (l.getD i default)) = l.map f := by
  rw [show (fun i => f (l.getD i default)) = f ∘ (fun i => l.getD i default) from rfl,
    ← List.map_map, map_getD_range]

theorem rerank_rescoring (centrality : List String → List (String × ℚ))
    (store : Store) (merged : List Nat) (h1 : merged ≠ [])
    (h2 : Reranker.centralityDict (centrality (merged.map (idAt store))) ≠ []) :
    Reranker.rerank centrality store merged
      = (store ++ merged.map (Reranker.rescored
            (Reranker.centralityDict (centrality (merged.map (idAt store)))) store),
         ((List.range merged.length).map (fun i => store.length + i)).insertionSort
           (fun a b =>
             scoreAt (store ++ merged.map (Reranker.rescored
               (Reranker.centralityDict (centrality (merged.map (idAt store)))) store)) b
             ≤ scoreAt (store ++ merged.map (Reranker.rescored
               (Reranker.centralityDict (centrality (merged.map (idAt store)))) store)) a)) := by
  have hids : merged.map (idAt store) ≠ [] := by
    simpa using h1
  rw [Reranker.rerank]
  simp only [if_neg hids, if_neg h2]
  simp only [rescore_foldl]
  simp

theorem rerank_getD_new (centr : List (String × ℚ)) (store : Store)
    (merged : List Nat) (i : Nat) :
    (store ++ merged.map (Reranker.rescored centr store)).getD (store.length + i) default
      = (merged.map (Reranker.rescored centr store)).getD i default := by
  rw [List.getD_append_right store _ default _ (Nat.le_add_right _ _),
    Nat.add_sub_cancel_left]

end RerankProof

section IndexProof

theorem commit_consistent (encode : String → List ℚ) (s : RState)
    (new : List Chunk) (d : Nat) (hcons : Consistent encode s) :
    Consistent encode
      (Retriever.commitBatch s d new (new.map (fun c => encode c.text))) := by
  obtain ⟨hist, hids, hfaiss, hlook⟩ := hcons
  refine ⟨hist ++ new, ?_, ?_, ?_⟩
  · simp [Retriever.commitBatch, hids]
  · simp [Retriever.commitBatch, hfaiss]
  · intro k hk
    simp only [Retriever.commitBatch] at hk ⊢
    rw [lookup_isSome_iff]
    rcases List.mem_append.mp hk with h | h
    · exact keys_foldl_dictInsert_mono (fun c => c.id) (fun c => c) new _ k
        ((lookup_isSome_iff _ _).mp (hlook k h))
    · obtain ⟨c, hc, rfl⟩ := List.mem_map.mp h
      exact mem_keys_foldl_dictInsert (fun c => c.id) (fun c => c) new _ c hc

theorem index_after_commit (encode : String → List ℚ) (s : RState)
    (C : List Chunk) (c0 : Chunk) (cs : List Chunk) (d : Nat)
    (vecs : List (List ℚ))
    (hfil : C.filter (fun c => (s.id_to_chunk.lookup c.id).isNone) = c0 :: cs) :
    Retriever.index encode (Retriever.commitBatch s d (c0 :: cs) vecs) C
      = (Retriever.commitBatch s d (c0 :: cs) vecs, none) := by
  have hc : C ≠ [] := by
    intro h
    rw [h] at hfil
    simp at hfil
  have hfil2 : C.filter (fun c =>
      (((Retriever.commitBatch s d (c0 :: cs) vecs).id_to_chunk).lookup c.id).isNone)
      = [] := by
    rw [List.filter_eq_nil_iff]
    intro c hcC
    simp only [Retriever.commitBatch]
    have hmem : c.id ∈ ((c0 :: cs).foldl
        (fun m x => dictInsert m x.id x) s.id_to_chunk).map Prod.fst := by
      cases hb : (s.id_to_chunk.lookup c.id).isNone with
      | false =>
        have hs : (s.id_to_chunk.lookup c.id).isSome = true := by
          rcases ho : s.id_to_chunk.lookup c.id with _ | v
          · rw [ho] at hb
            simp at hb
          · rfl
        exact keys_foldl_dictInsert_mono (fun x : Chunk => x.id) (fun x : Chunk => x)
          (c0 :: cs) s.id_to_chunk c.id ((lookup_isSome_iff _ _).mp hs)
      | true =>
        have hcf : c ∈ C.filter (fun c => (s.id_to_chunk.lookup c.id).isNone) :=
          List.mem_filter.mpr ⟨hcC, hb⟩
        rw [hfil] at hcf
        exact mem_keys_foldl_dictInsert (fun x => x.id) (fun x => x) _ _ c hcf
    have hsome := (lookup_isSome_iff _ _).mpr hmem
    intro hcontra
    rw [Option.isNone_iff_eq_none] at hcontra
    rw [hcontra] at hsome
    simp at hsome
  rw [Retriever.index]
  simp [hc, hfil2]

end IndexProof

section Claims

/-- C1: for every semantic list and graph list (with per-list distinct chunk
IDs and the object-disjointness that the call sites guarantee), `_merge`
returns the values of the ID-keyed map — semantic entries seeded, graph
entries blended as `alpha * semantic + (1 - alpha) * graph` when the ID is
present and inserted unchanged otherwise — sorted by descending score, with
each chunk ID occurring at most once; in particular on
S = [(A,0.9),(B,0.5)], G = [(B,1.0),(C,1.0)], alpha = 0.6 it returns
[C:1.0, A:0.9, B:0.70]. -/
theorem merge_blend_correct (cfg : RetrievalConfig) (store0 : Store)
    (sem graph : List Nat)
    (Hs : ∀ r ∈ sem, r < store0.length)
    (Hg : ∀ g ∈ graph, g < store0.length)
    (Hsn : (sem.map (idAt store0)).Nodup)
    (Hgn : (graph.map (idAt store0)).Nodup)
    (Hdisj : ∀ g ∈ graph, g ∉ sem) :
    (((Retriever._merge cfg store0 sem graph).2.map
        (idAt (Retriever._merge cfg store0 sem graph).1)).Nodup
    ∧ List.Sorted (fun a b => scoreAt (Retriever._merge cfg store0 sem graph).1 b
        ≤ scoreAt (Retriever._merge cfg store0 sem graph).1 a)
        (Retriever._merge cfg store0 sem graph).2
    ∧ (valsAt (Retriever._merge cfg store0 sem graph).1
        (Retriever._merge cfg store0 sem graph).2).Perm
        (mergeSpecDict cfg.alpha_semantic (valsAt store0 sem) (valsAt store0 graph)))
    ∧ valsAt (Retriever._merge cfg0 mergeStore [0, 1] [2, 3]).1
        (Retriever._merge cfg0 mergeStore [0, 1] [2, 3]).2
      = [("C", 1), ("A", 9/10), ("B", 7/10)] := by
  constructor
  · have inv := merge_final_inv cfg.alpha_semantic store0 sem graph Hs Hg Hsn Hgn Hdisj
    have hfst : (Retriever._merge cfg store0 sem graph).1
        = (graph.foldl (Retriever.mergeStep cfg.alpha_semantic)
            (store0, Retriever.mergeSeed store0 sem)).1 := rfl
    have hperm : ((Retriever._merge cfg store0 sem graph).2).Perm
        ((graph.foldl (Retriever.mergeStep cfg.alpha_semantic)
          (store0, Retriever.mergeSeed store0 sem)).2.map Prod.snd) :=
      List.perm_insertionSort _ _
    refine ⟨?_, ?_, ?_⟩
    · rw [hfst]
      apply (List.Perm.nodup_iff (List.Perm.map _ hperm)).mpr
      rw [List.map_map]
      have hcongr : ∀ p ∈ (graph.foldl (Retriever.mergeStep cfg.alpha_semantic)
          (store0, Retriever.mergeSeed store0 sem)).2,
          (idAt (graph.foldl (Retriever.mergeStep cfg.alpha_semantic)
            (store0, Retriever.mergeSeed store0 sem)).1 ∘ Prod.snd) p = Prod.fst p := by
        intro p hp
        show idAt _ p.2 = p.1
        rw [inv.idAt_stable p.2]
        exact (inv.entryId p hp).symm
      rw [List.map_congr_left hcongr]
      exact inv.keysNodup
    · haveI h1 : IsTotal Nat (fun a b =>
          scoreAt (Retriever._merge cfg store0 sem graph).1 b
            ≤ scoreAt (Retriever._merge cfg store0 sem graph).1 a) :=
        ⟨fun a b => le_total _ _⟩
      haveI h2 : IsTrans Nat (fun a b =>
          scoreAt (Retriever._merge cfg store0 sem graph).1 b
            ≤ scoreAt (Retriever._merge cfg store0 sem graph).1 a) :=
        ⟨fun a b c hab hbc => le_trans hbc hab⟩
      exact List.sorted_insertionSort _ _
    · rw [hfst, valsAt]
      refine List.Perm.trans (List.Perm.map _ hperm) ?_
      rw [List.map_map]
      have hcongr : ∀ p ∈ (graph.foldl (Retriever.mergeStep cfg.alpha_semantic)
          (store0, Retriever.mergeSeed store0 sem)).2,
          ((fun r => (idAt (graph.foldl (Retriever.mergeStep cfg.alpha_semantic)
              (store0, Retriever.mergeSeed store0 sem)).1 r,
            scoreAt (graph.foldl (Retriever.mergeStep cfg.alpha_semantic)
              (store0, Retriever.mergeSeed store0 sem)).1 r)) ∘ Prod.snd) p
          = (fun p => (p.1, scoreAt (graph.foldl (Retriever.mergeStep cfg.alpha_semantic)
              (store0, Retriever.mergeSeed store0 sem)).1 p.2)) p := by
        intro p hp
        show (idAt _ p.2, scoreAt _ p.2) = (p.1, scoreAt _ p.2)
        rw [inv.idAt_stable p.2, inv.entryId p hp]
      rw [List.map_congr_left hcongr, ← inv.sim]
      exact List.Perm.refl _
  · simp [Retriever._merge, Retriever.mergeStep, Retriever.mergeSeed, dictInsert,
      mergeStore, cfg0, cA, cB, cC, valsAt, idAt, scoreAt,
      List.insertionSort, List.orderedInsert, List.lookup]
    norm_num

/-- C1 witness: the side conditions hold and the theorem applies on the
spec's concrete example (references 0,1 semantic and 2,3 graph in
`mergeStore`). -/
theorem merge_blend_correct_witness :
    ((∀ r ∈ [0, 1], r < mergeStore.length)
    ∧ (∀ g ∈ [2, 3], g < mergeStore.length)
    ∧ (([0, 1].map (idAt mergeStore)).Nodup)
    ∧ (([2, 3].map (idAt mergeStore)).Nodup)
    ∧ (∀ g ∈ [2, 3], g ∉ [0, 1]))
    ∧ ((((Retriever._merge cfg0 mergeStore [0, 1] [2, 3]).2.map
        (idAt (Retriever._merge cfg0 mergeStore [0, 1] [2, 3]).1)).Nodup
    ∧ List.Sorted
        (fun a b => scoreAt (Retriever._merge cfg0 mergeStore [0, 1] [2, 3]).1 b
          ≤ scoreAt (Retriever._merge cfg0 mergeStore [0, 1] [2, 3]).1 a)
        (Retriever._merge cfg0 mergeStore [0, 1] [2, 3]).2
    ∧ (valsAt (Retriever._merge cfg0 mergeStore [0, 1] [2, 3]).1
        (Retriever._merge cfg0 mergeStore [0, 1] [2, 3]).2).Perm
        (mergeSpecDict cfg0.alpha_semantic (valsAt mergeStore [0, 1])
          (valsAt mergeStore [2, 3])))
    ∧ valsAt (Retriever._merge cfg0 mergeStore [0, 1] [2, 3]).1
        (Retriever._merge cfg0 mergeStore [0, 1] [2, 3]).2
      = [("C", 1), ("A", 9/10), ("B", 7/10)]) :=
  ⟨⟨by decide, by decide, by decide, by decide, by decide⟩,
   merge_blend_correct cfg0 mergeStore [0, 1] [2, 3]
     (by decide) (by decide) (by decide) (by decide) (by decide)⟩

/-- C7 counterexample: on the spec's own merge example the claim that merge
leaves every entry of its semantic input unchanged is false — the semantic
entry for B (reference 1) starts with score 0.5 and holds the blended score
0.7 after `_merge`, because the dict update mutates the shared record in
place. -/
theorem merge_mutates_semantic_counterexample :
    scoreAt mergeStore 1 = 1/2
    ∧ scoreAt (Retriever._merge cfg0 mergeStore [0, 1] [2, 3]).1 1 = 7/10
    ∧ (7/10 : ℚ) ≠ 1/2 := by
  refine ⟨by simp [mergeStore, scoreAt, cB], ?_, by norm_num⟩
  simp [Retriever._merge, Retriever.mergeStep, Retriever.mergeSeed, dictInsert,
    mergeStore, cfg0, cA, cB, cC, idAt, scoreAt, List.lookup]
  norm_num

/-- C7 amended: `_merge` leaves a semantic entry unchanged exactly when its
chunk ID does not occur in the graph list; a semantic entry whose ID also
occurs in the graph list is mutated in place to the blended score
`alpha * semantic + (1 - alpha) * graph`, and that mutated record is what
remains observable through the `semantic` sequence. -/
theorem merge_semantic_frame (cfg : RetrievalConfig) (store0 : Store)
    (sem graph : List Nat)
    (Hs : ∀ r ∈ sem, r < store0.length)
    (Hg : ∀ g ∈ graph, g < store0.length)
    (Hsn : (sem.map (idAt store0)).Nodup)
    (Hgn : (graph.map (idAt store0)).Nodup)
    (Hdisj : ∀ g ∈ graph, g ∉ sem) :
    ∀ r ∈ sem,
      (idAt store0 r ∉ graph.map (idAt store0) →
        (Retriever._merge cfg store0 sem graph).1.getD r default
          = store0.getD r default)
      ∧ ∀ g ∈ graph, idAt store0 g = idAt store0 r →
          (Retriever._merge cfg store0 sem graph).1.getD r default
            = ⟨chunkAt store0 r, cfg.alpha_semantic * scoreAt store0 r
                + (1 - cfg.alpha_semantic) * scoreAt store0 g⟩ := by
  intro r hr
  have inv := merge_final_inv cfg.alpha_semantic store0 sem graph Hs Hg Hsn Hgn Hdisj
  have hfst : (Retriever._merge cfg store0 sem graph).1
      = (graph.foldl (Retriever.mergeStep cfg.alpha_semantic)
          (store0, Retriever.mergeSeed store0 sem)).1 := rfl
  rw [hfst]
  exact inv.semStatus r hr

/-- C7 amended witness: on the concrete example, the semantic entry for A
(reference 0, ID not in the graph list) is untouched and the semantic entry
for B (reference 1, ID shared with graph reference 2) is mutated to the
blended record. -/
theorem merge_semantic_frame_witness :
    ((∀ r ∈ [0, 1], r < mergeStore.length)
    ∧ (∀ g ∈ [2, 3], g < mergeStore.length)
    ∧ (([0, 1].map (idAt mergeStore)).Nodup)
    ∧ (([2, 3].map (idAt mergeStore)).Nodup)
    ∧ (∀ g ∈ [2, 3], g ∉ [0, 1]))
    ∧ (∀ r ∈ [0, 1],
      (idAt mergeStore r ∉ [2, 3].map (idAt mergeStore) →
        (Retriever._merge cfg0 mergeStore [0, 1] [2, 3]).1.getD r default
          = mergeStore.getD r default)
      ∧ ∀ g ∈ [2, 3], idAt mergeStore g = idAt mergeStore r →
          (Retriever._merge cfg0 mergeStore [0, 1] [2, 3]).1.getD r default
            = ⟨chunkAt mergeStore r, cfg0.alpha_semantic * scoreAt mergeStore r
                + (1 - cfg0.alpha_semantic) * scoreAt mergeStore g⟩) :=
  ⟨⟨by decide, by decide, by decide, by decide, by decide⟩,
   merge_semantic_frame cfg0 mergeStore [0, 1] [2, 3]
     (by decide) (by decide) (by decide) (by decide) (by decide)⟩

/-- C4: for every non-empty merged list and non-empty centrality response,
`rerank` keeps every merged item, assigns it
`0.7 * score + 0.3 * centrality.get(id, 0.0)` (0 when the ID has no
centrality entry), and returns the items sorted by descending final score;
in particular a single item with score 0.8 and centrality 0.5 gets 0.71. -/
theorem rerank_blend_correct (centrality : List String → List (String × ℚ))
    (store : Store) (merged : List Nat) (h1 : merged ≠ [])
    (h2 : centrality (merged.map (idAt store)) ≠ []) :
    ((valsAt (Reranker.rerank centrality store merged).1
        (Reranker.rerank centrality store merged).2).Perm
      (merged.map (fun r => (idAt store r,
        7/10 * scoreAt store r + 3/10 * (((Reranker.centralityDict
          (centrality (merged.map (idAt store)))).lookup (idAt store r)).getD 0))))
    ∧ List.Sorted (fun a b => scoreAt (Reranker.rerank centrality store merged).1 b
        ≤ scoreAt (Reranker.rerank centrality store merged).1 a)
        (Reranker.rerank centrality store merged).2)
    ∧ valsAt (Reranker.rerank (fun _ => [("A", 1/2)]) rerankStore [0]).1
        (Reranker.rerank (fun _ => [("A", 1/2)]) rerankStore [0]).2
      = [("A", 71/100)] := by
  constructor
  · have h2' := centralityDict_ne_nil h2
    have heq := rerank_rescoring centrality store merged h1 h2'
    constructor
    · rw [heq, valsAt]
      refine (List.Perm.map _ (List.perm_insertionSort _ _)).trans ?_
      rw [List.map_map]
      have hpt : ∀ i ∈ List.range merged.length,
          ((fun r => (idAt (store ++ merged.map (Reranker.rescored
              (Reranker.centralityDict (centrality (merged.map (idAt store)))) store)) r,
            scoreAt (store ++ merged.map (Reranker.rescored
              (Reranker.centralityDict (centrality (merged.map (idAt store)))) store)) r))
            ∘ (fun i => store.length + i)) i
          = (fun i => (fun x : RetrievedChunk => (x.chunk.id, x.score))
              ((merged.map (Reranker.rescored (Reranker.centralityDict
                (centrality (merged.map (idAt store)))) store)).getD i default)) i := by
        intro i _
        show (idAt _ (store.length + i), scoreAt _ (store.length + i)) = _
        simp only [idAt, scoreAt, rerank_getD_new]
      rw [List.map_congr_left hpt,
        show merged.length = (merged.map (Reranker.rescored (Reranker.centralityDict
          (centrality (merged.map (idAt store)))) store)).length by rw [List.length_map],
        map_f_getD_range (fun x : RetrievedChunk => (x.chunk.id, x.score))
          (merged.map (Reranker.rescored (Reranker.centralityDict
            (centrality (merged.map (idAt store)))) store)),
        List.map_map]
      have hfin : ∀ r ∈ merged,
          ((fun x : RetrievedChunk => (x.chunk.id, x.score))
            ∘ Reranker.rescored (Reranker.centralityDict
              (centrality (merged.map (idAt store)))) store) r
          = (fun r => (idAt store r,
              7/10 * scoreAt store r + 3/10 * (((Reranker.centralityDict
                (centrality (merged.map (idAt store)))).lookup (idAt store r)).getD 0))) r :=
        fun r _ => rfl
      rw [List.map_congr_left hfin]
    · rw [heq]
      haveI ht1 : IsTotal Nat (fun a b =>
          scoreAt (store ++ merged.map (Reranker.rescored
            (Reranker.centralityDict (centrality (merged.map (idAt store)))) store)) b
          ≤ scoreAt (store ++ merged.map (Reranker.rescored
            (Reranker.centralityDict (centrality (merged.map (idAt store)))) store)) a) :=
        ⟨fun a b => le_total _ _⟩
      haveI ht2 : IsTrans Nat (fun a b =>
          scoreAt (store ++ merged.map (Reranker.rescored
            (Reranker.centralityDict (centrality (merged.map (idAt store)))) store)) b
          ≤ scoreAt (store ++ merged.map (Reranker.rescored
            (Reranker.centralityDict (centrality (merged.map (idAt store)))) store)) a) :=
        ⟨fun a b c hab hbc => le_trans hbc hab⟩
      exact List.sorted_insertionSort _ _
  · simp [Reranker.rerank, Reranker.rescoreOne, Reranker.rescored,
      Reranker.centralityDict, dictInsert, rerankStore, cA, valsAt, idAt, scoreAt,
      chunkAt, List.insertionSort, List.orderedInsert, List.lookup]
    norm_num

/-- C4 witness: the theorem applied to the single-item example (merged item
with score 0.8, centrality response 0.5 for its ID). -/
theorem rerank_blend_correct_witness :
    (([0] : List Nat) ≠ []
    ∧ (fun _ : List String => [(("A" : String), (1/2 : ℚ))]) ([0].map (idAt rerankStore)) ≠ [])
    ∧ (((valsAt (Reranker.rerank (fun _ => [("A", 1/2)]) rerankStore [0]).1
        (Reranker.rerank (fun _ => [("A", 1/2)]) rerankStore [0]).2).Perm
      ([0].map (fun r => (idAt rerankStore r,
        7/10 * scoreAt rerankStore r + 3/10 * (((Reranker.centralityDict
          ((fun _ => [("A", 1/2)]) ([0].map (idAt rerankStore)))).lookup
            (idAt rerankStore r)).getD 0))))
    ∧ List.Sorted
        (fun a b => scoreAt (Reranker.rerank (fun _ => [("A", 1/2)]) rerankStore [0]).1 b
          ≤ scoreAt (Reranker.rerank (fun _ => [("A", 1/2)]) rerankStore [0]).1 a)
        (Reranker.rerank (fun _ => [("A", 1/2)]) rerankStore [0]).2)
    ∧ valsAt (Reranker.rerank (fun _ => [("A", 1/2)]) rerankStore [0]).1
        (Reranker.rerank (fun _ => [("A", 1/2)]) rerankStore [0]).2
      = [("A", 71/100)]) :=
  ⟨⟨by simp, by simp⟩,
   rerank_blend_correct (fun _ => [("A", 1/2)]) rerankStore [0] (by simp) (by simp)⟩

/-- C5: for every non-empty merged list, when the centrality lookup returns
no entries at all, `rerank` returns the input merged list unchanged — the
very same store and the very same references, hence the same items, scores
and order. -/
theorem rerank_fallback_unchanged (centrality : List String → List (String × ℚ))
    (store : Store) (merged : List Nat) (h1 : merged ≠ [])
    (h2 : centrality (merged.map (idAt store)) = []) :
    Reranker.rerank centrality store merged = (store, merged) := by
  have hids : merged.map (idAt store) ≠ [] := by
    simpa using h1
  rw [Reranker.rerank]
  simp only [if_neg hids, h2]
  simp [Reranker.centralityDict]

/-- C5 witness: the fallback on a concrete single-item merged list with an
empty centrality response. -/
theorem rerank_fallback_unchanged_witness :
    (([0] : List Nat) ≠ []
    ∧ (fun _ : List String => ([] : List (String × ℚ))) ([0].map (idAt rerankStore)) = [])
    ∧ Reranker.rerank (fun _ => []) rerankStore [0] = (rerankStore, [0]) :=
  ⟨⟨by simp, rfl⟩,
   rerank_fallback_unchanged (fun _ => []) rerankStore [0] (by simp) rfl⟩

/-- C10: in the rescoring path (non-empty merged list, non-empty centrality
data) `rerank` does not mutate its input: the original store is an unchanged
prefix of the result store, so the input's merged references still hold their
original IDs and scores after the call. -/
theorem rerank_no_input_mutation (centrality : List String → List (String × ℚ))
    (store : Store) (merged : List Nat) (h1 : merged ≠ [])
    (h2 : centrality (merged.map (idAt store)) ≠ [])
    (hv : ∀ r ∈ merged, r < store.length) :
    (Reranker.rerank centrality store merged).1.take store.length = store
    ∧ valsAt (Reranker.rerank centrality store merged).1 merged
      = valsAt store merged := by
  have heq := rerank_rescoring centrality store merged h1 (centralityDict_ne_nil h2)
  rw [heq]
  constructor
  · exact List.take_left _ _
  · rw [valsAt, valsAt]
    apply List.map_congr_left
    intro r hr
    have hlt := hv r hr
    simp only [idAt, scoreAt]
    rw [List.getD_append _ _ default r hlt]

/-- C10 witness: no-mutation on the concrete single-item example. -/
theorem rerank_no_input_mutation_witness :
    (([0] : List Nat) ≠ []
    ∧ (fun _ : List String => [(("A" : String), (1/2 : ℚ))]) ([0].map (idAt rerankStore)) ≠ []
    ∧ (∀ r ∈ ([0] : List Nat), r < rerankStore.length))
    ∧ ((Reranker.rerank (fun _ => [("A", 1/2)]) rerankStore [0]).1.take rerankStore.length
        = rerankStore
    ∧ valsAt (Reranker.rerank (fun _ => [("A", 1/2)]) rerankStore [0]).1 [0]
      = valsAt rerankStore [0]) :=
  ⟨⟨by simp, by simp, by decide⟩,
   rerank_no_input_mutation (fun _ => [("A", 1/2)]) rerankStore [0]
     (by simp) (by simp) (by decide)⟩

/-- C8: empty-input conditions are never errors and produce empty results —
semantic search on an empty Vector Index returns the empty list, graph
expansion with no seeds returns the empty list without calling the Graph
Service, and reranking an empty merged list returns the empty result without
calling the Graph Service. -/
theorem empty_inputs_no_errors (encode : String → List ℚ)
    (search : List (List ℚ) → List ℚ → Nat → List (ℚ × Int))
    (neighbors : List String → Nat → Nat → List String)
    (centrality : List String → List (String × ℚ))
    (cfg : RetrievalConfig) (s : RState) (query : String) (store : Store)
    (hempty : s.faiss_index = none ∨ s.chunk_ids = []) :
    Retriever._semantic_search encode search cfg s query = []
    ∧ Retriever._graph_expand neighbors cfg s [] = []
    ∧ Retriever.graphExpandCall cfg [] = none
    ∧ Reranker.rerank centrality store [] = (store, [])
    ∧ Reranker.calledIds store [] = none := by
  refine ⟨?_, ?_, rfl, ?_, rfl⟩
  · rcases hempty with h | h
    · simp [Retriever._semantic_search, h]
    · cases hf : s.faiss_index with
      | none => simp [Retriever._semantic_search, hf]
      | some vecs => simp [Retriever._semantic_search, hf, h]
  · simp [Retriever._graph_expand, Retriever.graphExpandCall]
  · simp [Reranker.rerank]

/-- C8 witness: the empty-input behaviour on the freshly constructed state. -/
theorem empty_inputs_no_errors_witness :
    (RState.empty.faiss_index = none ∨ RState.empty.chunk_ids = [])
    ∧ (Retriever._semantic_search enc2 (fun _ _ _ => []) cfg0 RState.empty "q" = []
    ∧ Retriever._graph_expand (fun _ _ _ => []) cfg0 RState.empty [] = []
    ∧ Retriever.graphExpandCall cfg0 [] = none
    ∧ Reranker.rerank (fun _ => []) rerankStore [] = (rerankStore, [])
    ∧ Reranker.calledIds rerankStore [] = none) :=
  ⟨Or.inl rfl,
   empty_inputs_no_errors enc2 (fun _ _ _ => []) (fun _ _ _ => [])
     (fun _ => []) cfg0 RState.empty "q" rerankStore (Or.inl rfl)⟩

/-- C2: once a first batch has fixed the index dimensionality `D`, indexing a
batch whose genuinely new chunks embed with a different dimensionality `dnew`
raises the dimension-mismatch error and returns with the whole state exactly
equal to the pre-call state — no chunk of the batch is inserted. -/
theorem index_dimension_mismatch_atomic (encode : String → List ℚ) (s : RState)
    (chunks : List Chunk) (D dnew : Nat) (hD : s.dim = some D)
    (hnew : chunks.filter (fun c => (s.id_to_chunk.lookup c.id).isNone) ≠ [])
    (hlen : ∀ c ∈ chunks.filter (fun c => (s.id_to_chunk.lookup c.id).isNone),
        (encode c.text).length = dnew)
    (hne : dnew ≠ D) :
    Retriever.index encode s chunks = (s, some IndexErr.dimensionMismatch) := by
  have hc : chunks ≠ [] := by
    intro h
    rw [h] at hnew
    simp at hnew
  obtain ⟨c0, cs, hcons⟩ := List.exists_cons_of_ne_nil hnew
  have hc0 : c0 ∈ chunks.filter (fun c => (s.id_to_chunk.lookup c.id).isNone) := by
    rw [hcons]
    exact List.mem_cons_self _ _
  have hc0len : (encode c0.text).length = dnew := hlen c0 hc0
  have hallP : ∀ a ∈ cs, (encode a.text).length = (encode c0.text).length := by
    intro a ha
    rw [hc0len]
    exact hlen a (by rw [hcons]; exact List.mem_cons_of_mem _ ha)
  have hne2 : ¬((encode c0.text).length = D) := by
    rw [hc0len]
    exact hne
  simp [Retriever.index, hc, hcons, hallP, hD, hne2]
  exact hallP

/-- C2 witness: a first two-dimensional batch fixes D = 2; a later
three-dimensional batch with a new chunk is rejected atomically. -/
theorem index_dimension_mismatch_atomic_witness :
    ((Retriever.index enc2 RState.empty [cA, cB]).1.dim = some 2
    ∧ ([cC].filter (fun c =>
        (((Retriever.index enc2 RState.empty [cA, cB]).1.id_to_chunk).lookup c.id).isNone)
        ≠ [])
    ∧ (∀ c ∈ [cC].filter (fun c =>
        (((Retriever.index enc2 RState.empty [cA, cB]).1.id_to_chunk).lookup c.id).isNone),
        (enc3 c.text).length = 3)
    ∧ (3 : Nat) ≠ 2)
    ∧ Retriever.index enc3 (Retriever.index enc2 RState.empty [cA, cB]).1 [cC]
      = ((Retriever.index enc2 RState.empty [cA, cB]).1,
         some IndexErr.dimensionMismatch) :=
  ⟨⟨by decide, by decide, by decide, by decide⟩,
   index_dimension_mismatch_atomic enc3 (Retriever.index enc2 RState.empty [cA, cB]).1
     [cC] 2 3 (by decide) (by decide) (by decide) (by decide)⟩

/-- C3: indexing the same chunk sequence twice leaves the state exactly as
one call does — already-registered IDs are filtered out, so the second call
inserts nothing (the result of the second call, error included, equals the
result of the first). -/
theorem index_idempotent (encode : String → List ℚ) (s : RState)
    (C : List Chunk) :
    Retriever.index encode (Retriever.index encode s C).1 C
      = Retriever.index encode s C := by
  by_cases hc : C = []
  · subst hc
    simp [Retriever.index]
  · rcases hfil : C.filter (fun c => ((s.id_to_chunk.lookup c.id).isNone)) with _ | ⟨c0, cs⟩
    · have h1 : Retriever.index encode s C = (s, none) := by
        simp [Retriever.index, hc, hfil]
      rw [h1]
      exact h1
    · by_cases hallP : ∀ a ∈ cs, (encode a.text).length = (encode c0.text).length
      · rcases hdim : s.dim with _ | D
        · have h1 : Retriever.index encode s C
              = (Retriever.commitBatch s
                  ((((c0 :: cs).map (fun c => encode c.text)).headD []).length)
                  (c0 :: cs) ((c0 :: cs).map (fun c => encode c.text)), none) := by
            simp [Retriever.index, hc, hfil, hallP, hdim]
            exact hallP
          rw [h1]
          exact index_after_commit encode s C c0 cs _ _ hfil
        · by_cases hne : (encode c0.text).length = D
          · have h1 : Retriever.index encode s C
                = (Retriever.commitBatch s D (c0 :: cs)
                    ((c0 :: cs).map (fun c => encode c.text)), none) := by
              simp [Retriever.index, hc, hfil, hallP, hdim, hne]
              intro x hx
              rw [hallP x hx]
              exact hne
            rw [h1]
            exact index_after_commit encode s C c0 cs _ _ hfil
          · have h1 : Retriever.index encode s C = (s, some IndexErr.dimensionMismatch) := by
              simp [Retriever.index, hc, hfil, hallP, hdim, hne]
              exact hallP
            rw [h1]
            exact h1
      · have h1 : Retriever.index encode s C = (s, some IndexErr.invalidShape) := by
          simp [Retriever.index, hc, hfil, hallP]
        rw [h1]
        exact h1

/-- C9: membership consistency of the Vector Index and Chunk Repository —
it holds for the fresh state and is preserved by every `index` call,
successful or failed: the registered IDs and the stored vectors come from one
registration history in the same order (so counts agree and the i-th vector
belongs to the i-th registered chunk), and every registered ID resolves to a
chunk; no orphaned vector exists. -/
theorem index_membership_consistent (encode : String → List ℚ) :
    Consistent encode RState.empty
    ∧ ∀ (s : RState) (C : List Chunk), Consistent encode s →
        Consistent encode (Retriever.index encode s C).1 := by
  constructor
  · exact ⟨[], rfl, rfl, by simp [RState.empty]⟩
  · intro s C hcons
    by_cases hc : C = []
    · subst hc
      simpa [Retriever.index] using hcons
    · rcases hfil : C.filter (fun c => ((s.id_to_chunk.lookup c.id).isNone)) with _ | ⟨c0, cs⟩
      · simp only [Retriever.index, if_neg hc, hfil]
        simpa using hcons
      · by_cases hallP : ∀ a ∈ cs, (encode a.text).length = (encode c0.text).length
        · rcases hdim : s.dim with _ | D
          · have h1 : Retriever.index encode s C
                = (Retriever.commitBatch s
                    ((((c0 :: cs).map (fun c => encode c.text)).headD []).length)
                    (c0 :: cs) ((c0 :: cs).map (fun c => encode c.text)), none) := by
              simp [Retriever.index, hc, hfil, hallP, hdim]
              exact hallP
            rw [h1]
            exact commit_consistent encode s (c0 :: cs) _ hcons
          · by_cases hne : (encode c0.text).length = D
            · have h1 : Retriever.index encode s C
                  = (Retriever.commitBatch s D (c0 :: cs)
                      ((c0 :: cs).map (fun c => encode c.text)), none) := by
                simp [Retriever.index, hc, hfil, hallP, hdim, hne]
                intro x hx
                rw [hallP x hx]
                exact hne
              rw [h1]
              exact commit_consistent encode s (c0 :: cs) _ hcons
            · have h1 : Retriever.index encode s C = (s, some IndexErr.dimensionMismatch) := by
                simp [Retriever.index, hc, hfil, hallP, hdim, hne]
                exact hallP
              rw [h1]
              exact hcons
        · have h1 : Retriever.index encode s C = (s, some IndexErr.invalidShape) := by
            simp [Retriever.index, hc, hfil, hallP]
          rw [h1]
          exact hcons

/-- C9 witness: consistency of the fresh state and of the state after a
concrete successful batch. -/
theorem index_membership_consistent_witness :
    Consistent enc2 RState.empty
    ∧ Consistent enc2 (Retriever.index enc2 RState.empty [cA, cB]).1 :=
  ⟨(index_membership_consistent enc2).1,
   (index_membership_consistent enc2).2 RState.empty [cA, cB]
     ⟨[], rfl, rfl, by simp [RState.empty]⟩⟩

/-- C6 counterexample: with a graph configuration whose `max_hops` is 3, the
arguments `_graph_expand` passes to the Graph Service still carry
`max_hops = 2` — the hop bound is the literal at the call site, not the
configured value, so the claim that `max_hops` is config-controlled is
false. -/
theorem graph_expand_max_hops_counterexample :
    gcfg3.max_hops = 3
    ∧ (Retriever.graphExpandCall cfg0 ["e1"]).map (fun a => a.2.1) = some 2
    ∧ (Retriever.graphExpandCall cfg0 ["e1"]).map (fun a => a.2.1)
        ≠ some gcfg3.max_hops := by
  refine ⟨rfl, ?_, ?_⟩
  · simp [Retriever.graphExpandCall]
  · simp [Retriever.graphExpandCall, gcfg3]

/-- C6 amended: for every retrieval configuration and non-empty seed list,
`_graph_expand` calls the Graph Service with `limit` equal to the configured
`top_k_graph`, but with `max_hops` equal to the fixed literal 2 (which merely
coincides with `GraphConfig`'s default); only `limit` is config-controlled. -/
theorem graph_expand_call_args (cfg : RetrievalConfig) (entries : List String)
    (h : entries ≠ []) :
    Retriever.graphExpandCall cfg entries = some (entries, 2, cfg.top_k_graph) := by
  simp [Retriever.graphExpandCall, h]

/-- C6 amended witness: concrete non-empty seed list. -/
theorem graph_expand_call_args_witness :
    (["e1"] : List String) ≠ []
    ∧ Retriever.graphExpandCall cfg0 ["e1"] = some (["e1"], 2, cfg0.top_k_graph) :=
  ⟨by simp, graph_expand_call_args cfg0 ["e1"] (by simp)⟩

end Claims

end GraphRAG
